import Mathlib

/-!
Verification of the c_hashmap library against its specification.

The repository contains two hash-table implementations sharing one contract:
* a separate-chaining table (`hashmap.c`): a backing array of singly linked
  bucket lists, resized to double capacity when `nentries * 1.5 >= size`;
* an open-addressing table (the unnamed variant): a flat slot array with
  tri-state slots (EMPTY / DELETED / ACTIVE) and linear probing.

C `void *` keys and values are modelled as natural-number addresses
(`Ptr`); the null pointer is the address 0.  The C `int` hash values are
modelled as `Int`; the conversion `int -> size_t` performed by
`hash % hm->size` (usual arithmetic conversions) is `uhash`, and the
implicit `size_t -> int` conversion of the result (the return type of
`compress`) is `truncInt32` (two's-complement wrap, as gcc implements it).
-/

/-- A C pointer, modelled by its address.  `NULL` is `0`. -/
abbrev Ptr := Nat

/-- Conversion of a C `int` value to `size_t` (64-bit unsigned):
reduction modulo 2^64, mapping negative values to large positive ones. -/
def uhash (h : Int) : Nat := (h % (2 ^ 64 : Int)).toNat

/-- Conversion of a `size_t` value to C `int` (32-bit, two's complement
wrap-around, which is what gcc does for out-of-range values). -/
def truncInt32 (n : Nat) : Int :=
  let m : Nat := n % 2 ^ 32
  if m < 2 ^ 31 then (m : Int) else (m : Int) - 2 ^ 32

/-- `compress` from both variants:
`static inline int compress(struct hashmap *hm, int hash) { return hash % hm->size; }`.
The `%` is computed in `size_t` (the `int` operand is converted to
`size_t`), and the `size_t` result is converted back to `int`. -/
def compress (size : Nat) (hash : Int) : Int :=
  truncInt32 (uhash hash % size)

/-- The array index actually used for bucket / probe accesses: the value of
`hash % hm->size` as a `size_t`, before the conversion back to `int`.
For `size ≤ 2^31` this agrees with `compress` (see `compress_eq_bucketIdx`). -/
def bucketIdx (size : Nat) (hash : Int) : Nat :=
  uhash hash % size

/-- `--self->nentries` on a `size_t` counter: wraps around at 0. -/
def decSize (n : Nat) : Nat :=
  if n = 0 then 2 ^ 64 - 1 else n - 1

namespace Chained

/-- `struct hm_entry_t` of the chaining variant, without the intrusive
`next` pointer: a bucket is modelled as a `List Entry`, head first. -/
structure Entry where
  key : Ptr
  value : Ptr
deriving DecidableEq, Repr

/-- `struct hashmap` of the chaining variant (`hashmap.c`). -/
structure Hashmap where
  /-- `size_t size` : size of the backing array. -/
  size : Nat
  /-- `size_t nentries` : number of entries. -/
  nentries : Nat
  /-- `struct hm_entry_t **backing` : the array of bucket lists. -/
  backing : List (List Entry)
  /-- `int (*hashcode)(void*)` : the pluggable hash function. -/
  hashcode : Ptr → Int
  /-- `int (*equals)(void*, void*)` : the pluggable equality function. -/
  equals : Ptr → Ptr → Bool

/-- `add_entry` (chaining): prepend the entry at the head of the bucket
list of `compress(self, self->hashcode(entry->key))`.  Does not touch
`nentries`. -/
def add_entry (hm : Hashmap) (e : Entry) : Hashmap :=
  let index := bucketIdx hm.size (hm.hashcode e.key)
  { hm with backing := hm.backing.set index (e :: hm.backing.getD index []) }

/-- `resize` (chaining), success path: allocate a zeroed backing array of
`new_size` buckets, then walk every old bucket from its head and
`add_entry` each node into the new array; `nentries` is untouched. -/
def resize (hm : Hashmap) (new_size : Nat) : Hashmap :=
  let start : Hashmap :=
    { hm with size := new_size, backing := List.replicate new_size [] }
  hm.backing.foldl (fun acc bucket => bucket.foldl add_entry acc) start

/-- `hashmap_init` / `hashmap_new`, success path: ten empty buckets,
no entries, the given hash and equality functions (already defaulted). -/
def hashmap_new (hash_func : Ptr → Int) (equals_func : Ptr → Ptr → Bool) : Hashmap :=
  { size := 10
    nentries := 0
    backing := List.replicate 10 []
    hashcode := hash_func
    equals := equals_func }

/-- `hashmap_add` (chaining), for a valid (non-null) table with successful
allocations.  First resizes to double capacity when
`nentries * 1.5 >= size` (the `double` arithmetic `n * 1.5 >= s` is exact
and equivalent to `3*n >= 2*s` for every reachable `n`), then scans the
target bucket for a key equal to `key` and refuses with `0` if one is
found, else prepends the new entry and increments `nentries`. -/
def hashmap_add (hm : Hashmap) (key value : Ptr) : Bool × Hashmap :=
  let hm1 := if 3 * hm.nentries ≥ 2 * hm.size then resize hm (hm.size * 2) else hm
  let index := bucketIdx hm1.size (hm1.hashcode key)
  if (hm1.backing.getD index []).any (fun e => hm1.equals e.key key) then
    (false, hm1)
  else
    let hm2 := add_entry hm1 ⟨key, value⟩
    (true, { hm2 with nentries := hm2.nentries + 1 })

/-- The pointer-to-pointer removal walk of `hashmap_remove`: remove the
first entry of the bucket whose key satisfies `p`, returning its value and
the shortened bucket, or `none` when no entry matches. -/
def bucketRemove (p : Entry → Bool) : List Entry → Option (Ptr × List Entry)
  | [] => none
  | e :: rest =>
    if p e then some (e.value, rest)
    else
      match bucketRemove p rest with
      | none => none
      | some (v, rest') => some (v, e :: rest')

/-- `hashmap_remove` (chaining), for a valid table: unlink the first
matching entry of the target bucket, decrement `nentries` and return the
value; return `NULL` and leave the table unchanged when the key is absent. -/
def hashmap_remove (hm : Hashmap) (key : Ptr) : Ptr × Hashmap :=
  let index := bucketIdx hm.size (hm.hashcode key)
  match bucketRemove (fun e => hm.equals e.key key) (hm.backing.getD index []) with
  | none => (0, hm)
  | some (v, bucket') =>
    (v, { hm with backing := hm.backing.set index bucket',
                  nentries := decSize hm.nentries })

/-- `hashmap_get` (chaining): scan the target bucket for the first entry
whose key equals `key`; return its value, or `NULL` when none matches. -/
def hashmap_get (hm : Hashmap) (key : Ptr) : Ptr :=
  let index := bucketIdx hm.size (hm.hashcode key)
  match (hm.backing.getD index []).find? (fun e => hm.equals e.key key) with
  | some e => e.value
  | none => 0

/-- `hashmap_contains`: `hashmap_get(self, key) != NULL`. -/
def hashmap_contains (hm : Hashmap) (key : Ptr) : Bool :=
  hashmap_get hm key != 0

/-- `hashmap_clear`: drop the backing array and re-initialise with the
same hash and equality functions. -/
def hashmap_clear (hm : Hashmap) : Hashmap :=
  hashmap_new hm.hashcode hm.equals

/-- `hashmap_size`: the stored entry count. -/
def hashmap_size (hm : Hashmap) : Nat := hm.nentries

/-- All live entries of the table, bucket by bucket. -/
def entries (hm : Hashmap) : List Entry := hm.backing.flatten

/-- One public mutating operation of the chained table. -/
inductive Op where
  | add (key value : Ptr)
  | remove (key : Ptr)
  | clear
deriving Repr

/-- Apply one public operation to the table (results of `add`/`remove`
are discarded, only the state matters). -/
def applyOp (hm : Hashmap) : Op → Hashmap
  | .add k v => (hashmap_add hm k v).2
  | .remove k => (hashmap_remove hm k).2
  | .clear => hashmap_clear hm

/-- Run a sequence of public operations on a fresh table built with the
given hash and equality functions. -/
def run (hash_func : Ptr → Int) (equals_func : Ptr → Ptr → Bool)
    (ops : List Op) : Hashmap :=
  ops.foldl applyOp (hashmap_new hash_func equals_func)

end Chained

namespace OpenAddr

/-- Slot state of the open-addressing variant: `EMPTY = 0`, `DELETED`,
`ACTIVE`. -/
inductive SlotState where
  | empty
  | deleted
  | active
deriving DecidableEq, Repr

/-- `struct hm_entry_t` of the open-addressing variant: one slot of the
flat backing array. -/
structure Slot where
  key : Ptr
  value : Ptr
  state : SlotState
deriving DecidableEq, Repr

/-- A `calloc`-zeroed slot: null key, null value, `EMPTY` (= 0) state. -/
def zeroSlot : Slot := ⟨0, 0, .empty⟩

/-- `struct hashmap` of the open-addressing variant. -/
structure OAMap where
  size : Nat
  nentries : Nat
  backing : List Slot
  hashcode : Ptr → Int
  equals : Ptr → Ptr → Bool

/-- `update_index`: `(index + 1) % hm->size` (computed in `size_t`). -/
def update_index (size index : Nat) : Nat := (index + 1) % size

/-- The probe loop of `add_entry` (open addressing).  Starting at `index`,
walk while the current slot is `ACTIVE`: refuse (`none`) if its key equals
the new key, advance by `update_index`, and refuse when the probe returns
to `start`.  Stop at the first non-`ACTIVE` slot (EMPTY **or** DELETED)
and report its index.  `fuel` only bounds the recursion; `fuel = size`
is always enough because the probe refuses after `size - 1` advances. -/
def addLoop (backing : List Slot) (size : Nat) (eq : Ptr → Ptr → Bool)
    (ekey : Ptr) (start : Nat) : Nat → Nat → Option Nat
  | _, 0 => none
  | index, fuel + 1 =>
    let cur := backing.getD index zeroSlot
    if cur.state = .active then
      if eq cur.key ekey then none
      else
        let index' := update_index size index
        if index' = start then none
        else addLoop backing size eq ekey start index' fuel
    else some index

/-- `add_entry` (open addressing): probe from
`compress(self, hashcode(entry->key))`; on success overwrite the found
slot with the entry (`self->backing[index] = *entry`).  The write
`cur.state = ACTIVE` in the source mutates a local copy and has no
effect; the stored state is the entry's own (`ACTIVE` at every call
site). -/
def add_entry (hm : OAMap) (e : Slot) : Bool × OAMap :=
  let start := bucketIdx hm.size (hm.hashcode e.key)
  match addLoop hm.backing hm.size hm.equals e.key start start hm.size with
  | none => (false, hm)
  | some index => (true, { hm with backing := hm.backing.set index e })

/-- `resize` (open addressing), success path: fresh zeroed array of
`new_size` slots, then re-insert every `ACTIVE` slot of the old array, in
index order, via `add_entry` — whose success flag is ignored. -/
def resize (hm : OAMap) (new_size : Nat) : OAMap :=
  let start : OAMap :=
    { hm with size := new_size, backing := List.replicate new_size zeroSlot }
  hm.backing.foldl
    (fun acc cur => if cur.state = .active then (add_entry acc cur).2 else acc)
    start

/-- `hashmap_init` / `hashmap_new` (open addressing), success path. -/
def hashmap_new (hash_func : Ptr → Int) (equals_func : Ptr → Ptr → Bool) : OAMap :=
  { size := 10
    nentries := 0
    backing := List.replicate 10 zeroSlot
    hashcode := hash_func
    equals := equals_func }

/-- `hashmap_add` (open addressing): resize to double capacity when
`nentries * 1.5 >= size` (exactly `3*n >= 2*s`, see the chained variant),
then `add_entry` a fresh `ACTIVE` slot; on success increment `nentries`. -/
def hashmap_add (hm : OAMap) (key value : Ptr) : Bool × OAMap :=
  let hm1 := if 3 * hm.nentries ≥ 2 * hm.size then resize hm (hm.size * 2) else hm
  match add_entry hm1 ⟨key, value, .active⟩ with
  | (false, hm2) => (false, hm2)
  | (true, hm2) => (true, { hm2 with nentries := hm2.nentries + 1 })

/-- The probe loop of `find_entry`.  Starting at `index`: succeed at an
`ACTIVE` slot whose key equals `key`; fail at an `EMPTY` slot; otherwise
(DELETED, or ACTIVE with a different key) advance, failing when the probe
returns to `start`.  `fuel = size` is always sufficient. -/
def findLoop (backing : List Slot) (size : Nat) (eq : Ptr → Ptr → Bool)
    (key : Ptr) (start : Nat) : Nat → Nat → Option Nat
  | _, 0 => none
  | index, fuel + 1 =>
    let cur := backing.getD index zeroSlot
    if cur.state = .active ∧ eq cur.key key then some index
    else if cur.state = .empty then none
    else
      let index' := update_index size index
      if index' = start then none
      else findLoop backing size eq key start index' fuel

/-- `find_entry`: probe from `compress(self, hashcode(key))`; return the
index of the matching `ACTIVE` slot, if any. -/
def find_entry (hm : OAMap) (key : Ptr) : Option Nat :=
  let start := bucketIdx hm.size (hm.hashcode key)
  findLoop hm.backing hm.size hm.equals key start start hm.size

/-- `hashmap_remove` (open addressing): `find_entry`; when found (the
found slot is always `ACTIVE`, so the `!cur->state` re-check never
fires), set the slot's state to `DELETED`, decrement `nentries` and
return the value; otherwise return `NULL` without mutation. -/
def hashmap_remove (hm : OAMap) (key : Ptr) : Ptr × OAMap :=
  match find_entry hm key with
  | none => (0, hm)
  | some index =>
    let cur := hm.backing.getD index zeroSlot
    (cur.value,
     { hm with backing := hm.backing.set index { cur with state := .deleted },
               nentries := decSize hm.nentries })

/-- `hashmap_get` (open addressing): value of the found slot, `NULL` when
absent (the found slot is always `ACTIVE`, so the `state == ACTIVE`
re-check never fails). -/
def hashmap_get (hm : OAMap) (key : Ptr) : Ptr :=
  match find_entry hm key with
  | some index => (hm.backing.getD index zeroSlot).value
  | none => 0

/-- `hashmap_contains`: `hashmap_get(self, key) != NULL`. -/
def hashmap_contains (hm : OAMap) (key : Ptr) : Bool :=
  hashmap_get hm key != 0

/-- `hashmap_clear` (open addressing). -/
def hashmap_clear (hm : OAMap) : OAMap :=
  hashmap_new hm.hashcode hm.equals

/-- `hashmap_size`: the stored entry count. -/
def hashmap_size (hm : OAMap) : Nat := hm.nentries

/-- The live (`ACTIVE`) slots of the table, in index order. -/
def liveEntries (hm : OAMap) : List Slot :=
  hm.backing.filter (fun s => s.state == .active)

/-- One public mutating operation of the open-addressing table. -/
inductive Op where
  | add (key value : Ptr)
  | remove (key : Ptr)
  | clear
deriving Repr

/-- Apply one public operation to the table. -/
def applyOp (hm : OAMap) : Op → OAMap
  | .add k v => (hashmap_add hm k v).2
  | .remove k => (hashmap_remove hm k).2
  | .clear => hashmap_clear hm

/-- Run a sequence of public operations on a fresh table. -/
def run (hash_func : Ptr → Int) (equals_func : Ptr → Ptr → Bool)
    (ops : List Op) : OAMap :=
  ops.foldl applyOp (hashmap_new hash_func equals_func)

end OpenAddr

/-! ### Invariants of the chained table -/

namespace Chained

/-- Basic well-formedness: the backing array has exactly `size` buckets and
`size` is nonzero (both hold from construction on). -/
@[reducible]
def WfLen (hm : Hashmap) : Prop :=
  hm.backing.length = hm.size ∧ 0 < hm.size

/-- Every entry sits in the bucket its hashed key compresses to. -/
@[reducible]
def Coherent (hm : Hashmap) : Prop :=
  ∀ j < hm.backing.length, ∀ e ∈ hm.backing.getD j [],
    bucketIdx hm.size (hm.hashcode e.key) = j

/-- No two live entries have keys the table's equality function accepts. -/
@[reducible]
def DistinctKeys (hm : Hashmap) : Prop :=
  (entries hm).Pairwise (fun e1 e2 => hm.equals e1.key e2.key = false)

/-- The equality callback is symmetric (part of the caller contract for a
usable equality function). -/
def EqSymm (eq : Ptr → Ptr → Bool) : Prop :=
  ∀ a b, eq a b = eq b a

/-- The equality callback is transitive. -/
def EqTrans (eq : Ptr → Ptr → Bool) : Prop :=
  ∀ a b c, eq a b = true → eq b c = true → eq a c = true

/-- Keys the equality callback accepts hash alike (the fundamental
hash/equals compatibility contract). -/
def HashCompat (hash : Ptr → Int) (eq : Ptr → Ptr → Bool) : Prop :=
  ∀ a b, eq a b = true → hash a = hash b

end Chained

/-! ### Decomposition of `hashmap_add` and concrete fixtures -/

namespace Chained

/-- The resize step at the top of `hashmap_add`: resize to double capacity
exactly when `nentries * 1.5 >= size`.  `hashmap_add` is definitionally
this step followed by `addStep` (see `hashmap_add_eq_steps`). -/
def resizeStep (hm : Hashmap) : Hashmap :=
  if 3 * hm.nentries ≥ 2 * hm.size then resize hm (hm.size * 2) else hm

/-- The rest of `hashmap_add` after the resize step: duplicate scan of the
target bucket, then prepend-and-count. -/
def addStep (hm1 : Hashmap) (key value : Ptr) : Bool × Hashmap :=
  let index := bucketIdx hm1.size (hm1.hashcode key)
  if (hm1.backing.getD index []).any (fun e => hm1.equals e.key key) then
    (false, hm1)
  else
    let hm2 := add_entry hm1 ⟨key, value⟩
    (true, { hm2 with nentries := hm2.nentries + 1 })

end Chained

/-- The default-style hash used by the concrete test tables: the key's
address, as `addr_hash` does. -/
def idHash : Ptr → Int := fun k => (k : Int)

/-- Pointer equality used by the concrete test tables, as `ref_eq` does. -/
def eqPtr : Ptr → Ptr → Bool := fun a b => decide (a = b)

/-- A chained table holding the single mapping `1 ↦ NULL`. -/
def cmapNull : Chained.Hashmap :=
  (Chained.hashmap_add (Chained.hashmap_new idHash eqPtr) 1 0).2

/-- A chained table holding the single mapping `1 ↦ 5`. -/
def cmapOne : Chained.Hashmap :=
  (Chained.hashmap_add (Chained.hashmap_new idHash eqPtr) 1 5).2

/-- A chained table with seven entries `k ↦ k + 10` for `k = 0..6`: the
next insertion crosses the load-factor threshold (`3*7 ≥ 2*10`). -/
def cmapSeven : Chained.Hashmap :=
  Chained.run idHash eqPtr
    [.add 0 10, .add 1 11, .add 2 12, .add 3 13, .add 4 14, .add 5 15, .add 6 16]

/-- An open-addressing table where slot 0 is a tombstone: key 0 was
inserted (slot 0) and removed again. -/
def oaTomb : OpenAddr.OAMap :=
  OpenAddr.run idHash eqPtr [.add 0 100, .remove 0]

/-- An open-addressing table reached by `add 0`, `add 10` (collides,
probes to slot 1), `remove 0` (slot 0 becomes a tombstone), `add 10`
again: the second `add 10` is accepted into the tombstone slot even
though key 10 is still live in slot 1. -/
def oaDup : OpenAddr.OAMap :=
  OpenAddr.run idHash eqPtr [.add 0 100, .add 10 200, .remove 0, .add 10 300]

/-- `oaDup` extended with five fresh keys and one more `add`, which
triggers the resize: the rehash drops one of the two key-10 slots while
`nentries` keeps counting it. -/
def oaCount : OpenAddr.OAMap :=
  OpenAddr.run idHash eqPtr
    [.add 0 100, .add 10 200, .remove 0, .add 10 300,
     .add 2 2, .add 3 3, .add 4 4, .add 5 5, .add 6 6, .add 7 7]

/-- An open-addressing table holding two live slots for key 18 (values
182 at slot 8 — the probe-first one — and 181 at slot 0), with seven
entries total, so that the next insertion triggers a resize. -/
def oaPre : OpenAddr.OAMap :=
  OpenAddr.run idHash eqPtr
    [.add 8 80, .add 9 90, .add 18 181, .remove 8,
     .add 18 182, .add 1 1, .add 2 2, .add 3 3, .add 4 4]

/-! ### Helper lemmas about lists -/

theorem getD_set_self {α : Type} (l : List α) (i : Nat) (x d : α)
    (h : i < l.length) : (l.set i x).getD i d = x := by
  rw [List.getD_eq_getElem _ _ (by simpa using h), List.getElem_set]
  simp

theorem getD_set_ne {α : Type} (l : List α) (i j : Nat) (x d : α)
    (hne : i ≠ j) : (l.set i x).getD j d = l.getD j d := by
  by_cases hj : j < l.length
  · rw [List.getD_eq_getElem _ _ (by simpa using hj),
      List.getD_eq_getElem _ _ hj, List.getElem_set, if_neg hne]
  · rw [List.getD_eq_default _ _ (by simpa using Nat.le_of_not_lt hj),
      List.getD_eq_default _ _ (Nat.le_of_not_lt hj)]

theorem getD_replicate_self {α : Type} (n j : Nat) (d : α) :
    (List.replicate n d).getD j d = d := by
  by_cases hj : j < n
  · rw [List.getD_eq_getElem _ _ (by simpa using hj)]
    exact List.getElem_replicate _ _
  · exact List.getD_eq_default _ _ (by simpa using Nat.le_of_not_lt hj)

theorem flatten_replicate_nil {α : Type} (n : Nat) :
    (List.replicate n ([] : List α)).flatten = [] := by
  induction n with
  | zero => rfl
  | succ m ih => simp [List.replicate_succ, ih]

theorem flatten_set_cons_perm {α : Type} (l : List (List α)) (i : Nat) (x : α)
    (h : i < l.length) :
    (l.set i (x :: l.getD i [])).flatten.Perm (x :: l.flatten) := by
  induction l generalizing i with
  | nil => simp at h
  | cons b t ih =>
    cases i with
    | zero => simp
    | succ n =>
      rw [List.getD_cons_succ, List.set_cons_succ, List.flatten_cons,
        List.flatten_cons]
      exact ((ih n (by simpa using h)).append_left b).trans List.perm_middle

theorem mem_getD_mem_flatten {α : Type} {l : List (List α)} {j : Nat} {x : α}
    (hx : x ∈ l.getD j []) : x ∈ l.flatten := by
  by_cases hj : j < l.length
  · rw [List.getD_eq_getElem _ _ hj] at hx
    exact List.mem_flatten.mpr ⟨l[j], List.getElem_mem hj, hx⟩
  · rw [List.getD_eq_default _ _ (Nat.le_of_not_lt hj)] at hx
    cases hx

theorem mem_flatten_mem_getD {α : Type} {l : List (List α)} {x : α}
    (hx : x ∈ l.flatten) : ∃ j < l.length, x ∈ l.getD j [] := by
  obtain ⟨b, hb, hxb⟩ := List.mem_flatten.mp hx
  obtain ⟨j, hj, rfl⟩ := List.mem_iff_getElem.mp hb
  exact ⟨j, hj, by rw [List.getD_eq_getElem _ _ hj]; exact hxb⟩

theorem foldl_flatten_eq {α β : Type} (f : β → α → β) (L : List (List α))
    (b : β) :
    L.foldl (fun acc bucket => bucket.foldl f acc) b = L.flatten.foldl f b := by
  induction L generalizing b with
  | nil => rfl
  | cons a t ih => simp [List.flatten_cons, List.foldl_append, ih]

/-! ### Structural lemmas about the chained operations -/

namespace Chained

theorem add_entry_size (hm : Hashmap) (e : Entry) :
    (add_entry hm e).size = hm.size := rfl

theorem add_entry_nentries (hm : Hashmap) (e : Entry) :
    (add_entry hm e).nentries = hm.nentries := rfl

theorem add_entry_hashcode (hm : Hashmap) (e : Entry) :
    (add_entry hm e).hashcode = hm.hashcode := rfl

theorem add_entry_equals (hm : Hashmap) (e : Entry) :
    (add_entry hm e).equals = hm.equals := rfl

theorem add_entry_backing_length (hm : Hashmap) (e : Entry) :
    (add_entry hm e).backing.length = hm.backing.length := by
  simp [add_entry]

theorem add_entry_wfLen {hm : Hashmap} (e : Entry) (h : WfLen hm) :
    WfLen (add_entry hm e) :=
  ⟨by rw [add_entry_backing_length]; exact h.1, h.2⟩

theorem bucketIdx_lt (size : Nat) (hash : Int) (h : 0 < size) :
    bucketIdx size hash < size :=
  Nat.mod_lt _ h

theorem add_entry_entries_perm {hm : Hashmap} (e : Entry) (h : WfLen hm) :
    (entries (add_entry hm e)).Perm (e :: entries hm) := by
  have hidx : bucketIdx hm.size (hm.hashcode e.key) < hm.backing.length := by
    rw [h.1]; exact bucketIdx_lt _ _ h.2
  exact flatten_set_cons_perm hm.backing _ e hidx

theorem add_entry_coherent {hm : Hashmap} (e : Entry)
    (hc : Coherent hm) : Coherent (add_entry hm e) := by
  intro j hj x hx
  have hj' : j < hm.backing.length := add_entry_backing_length hm e ▸ hj
  have hback : (add_entry hm e).backing
      = hm.backing.set (bucketIdx hm.size (hm.hashcode e.key))
        (e :: hm.backing.getD (bucketIdx hm.size (hm.hashcode e.key)) []) := rfl
  by_cases hje : bucketIdx hm.size (hm.hashcode e.key) = j
  · subst hje
    rw [hback, getD_set_self _ _ _ _ hj'] at hx
    rcases List.mem_cons.mp hx with rfl | hx
    · rfl
    · exact hc _ hj' x hx
  · rw [hback, getD_set_ne _ _ _ _ _ hje] at hx
    exact hc j hj' x hx

theorem foldl_add_entry_size (l : List Entry) (hm : Hashmap) :
    (l.foldl add_entry hm).size = hm.size := by
  induction l generalizing hm with
  | nil => rfl
  | cons x xs ih => rw [List.foldl_cons, ih, add_entry_size]

theorem foldl_add_entry_nentries (l : List Entry) (hm : Hashmap) :
    (l.foldl add_entry hm).nentries = hm.nentries := by
  induction l generalizing hm with
  | nil => rfl
  | cons x xs ih => rw [List.foldl_cons, ih, add_entry_nentries]

theorem foldl_add_entry_hashcode (l : List Entry) (hm : Hashmap) :
    (l.foldl add_entry hm).hashcode = hm.hashcode := by
  induction l generalizing hm with
  | nil => rfl
  | cons x xs ih => rw [List.foldl_cons, ih, add_entry_hashcode]

theorem foldl_add_entry_equals (l : List Entry) (hm : Hashmap) :
    (l.foldl add_entry hm).equals = hm.equals := by
  induction l generalizing hm with
  | nil => rfl
  | cons x xs ih => rw [List.foldl_cons, ih, add_entry_equals]

theorem foldl_add_entry_wfLen (l : List Entry) {hm : Hashmap} (h : WfLen hm) :
    WfLen (l.foldl add_entry hm) := by
  induction l generalizing hm with
  | nil => exact h
  | cons x xs ih => exact ih (add_entry_wfLen x h)

theorem foldl_add_entry_entries_perm (l : List Entry) {hm : Hashmap}
    (h : WfLen hm) :
    (entries (l.foldl add_entry hm)).Perm (l ++ entries hm) := by
  induction l generalizing hm with
  | nil => exact List.Perm.refl _
  | cons x xs ih =>
    rw [List.foldl_cons]
    have h1 := ih (add_entry_wfLen x h)
    have h2 := (add_entry_entries_perm x h).append_left xs
    exact (h1.trans h2).trans List.perm_middle

theorem foldl_add_entry_coherent (l : List Entry) {hm : Hashmap}
    (hw : WfLen hm) (hc : Coherent hm) : Coherent (l.foldl add_entry hm) := by
  induction l generalizing hm with
  | nil => exact hc
  | cons x xs ih => exact ih (add_entry_wfLen x hw) (add_entry_coherent x hc)

end Chained

/-! ### Lemmas about the chained `resize` -/

namespace Chained

theorem resize_eq_foldl (hm : Hashmap) (n : Nat) :
    resize hm n
      = (entries hm).foldl add_entry
          { hm with size := n, backing := List.replicate n [] } :=
  (foldl_flatten_eq add_entry hm.backing _)

theorem resize_size (hm : Hashmap) (n : Nat) : (resize hm n).size = n := by
  rw [resize_eq_foldl, foldl_add_entry_size]

theorem resize_nentries (hm : Hashmap) (n : Nat) :
    (resize hm n).nentries = hm.nentries := by
  rw [resize_eq_foldl, foldl_add_entry_nentries]

theorem resize_hashcode (hm : Hashmap) (n : Nat) :
    (resize hm n).hashcode = hm.hashcode := by
  rw [resize_eq_foldl, foldl_add_entry_hashcode]

theorem resize_equals (hm : Hashmap) (n : Nat) :
    (resize hm n).equals = hm.equals := by
  rw [resize_eq_foldl, foldl_add_entry_equals]

theorem resize_start_wfLen (hm : Hashmap) {n : Nat} (hn : 0 < n) :
    WfLen ({ hm with size := n, backing := List.replicate n [] } : Hashmap) :=
  ⟨by simp, hn⟩

theorem resize_wfLen (hm : Hashmap) {n : Nat} (hn : 0 < n) :
    WfLen (resize hm n) := by
  rw [resize_eq_foldl]
  exact foldl_add_entry_wfLen _ (resize_start_wfLen hm hn)

theorem resize_entries_perm (hm : Hashmap) {n : Nat} (hn : 0 < n) :
    (entries (resize hm n)).Perm (entries hm) := by
  rw [resize_eq_foldl]
  have h := foldl_add_entry_entries_perm (entries hm) (resize_start_wfLen hm hn)
  have hstart : entries ({ hm with size := n, backing := List.replicate n [] } : Hashmap)
      = [] := flatten_replicate_nil n
  rw [hstart] at h
  simpa using h

theorem resize_coherent (hm : Hashmap) {n : Nat} (hn : 0 < n) :
    Coherent (resize hm n) := by
  rw [resize_eq_foldl]
  refine foldl_add_entry_coherent _ (resize_start_wfLen hm hn) ?_
  intro j hj x hx
  rw [show ({ hm with size := n, backing := List.replicate n [] } : Hashmap).backing
      = List.replicate n [] from rfl, getD_replicate_self] at hx
  cases hx

theorem distinct_of_perm {hm hm2 : Hashmap}
    (heq : hm2.equals = hm.equals)
    (hperm : (entries hm2).Perm (entries hm))
    (hsym : EqSymm hm.equals) (hdk : DistinctKeys hm) : DistinctKeys hm2 := by
  unfold DistinctKeys
  rw [heq]
  refine (List.Perm.pairwise_iff ?_ hperm).mpr hdk
  intro x y hxy
  rw [hsym]
  exact hxy

theorem resize_distinct (hm : Hashmap) {n : Nat} (hn : 0 < n)
    (hsym : EqSymm hm.equals) (hdk : DistinctKeys hm) :
    DistinctKeys (resize hm n) :=
  distinct_of_perm (resize_equals hm n) (resize_entries_perm hm hn) hsym hdk

end Chained

/-! ### Lookup characterisation for well-formed chained tables -/

namespace Chained

theorem mem_entries_iff {hm : Hashmap} {e : Entry} :
    e ∈ entries hm ↔ ∃ j < hm.backing.length, e ∈ hm.backing.getD j [] := by
  constructor
  · exact fun h => mem_flatten_mem_getD h
  · rintro ⟨j, _, hj⟩
    exact mem_getD_mem_flatten hj

/-- The relation "keys are distinct according to `equals`" is symmetric
once `equals` is. -/
theorem distinct_rel_symm {eq : Ptr → Ptr → Bool} (hsym : EqSymm eq) :
    Symmetric (fun e1 e2 : Entry => eq e1.key e2.key = false) := by
  intro x y hxy
  rw [hsym]
  exact hxy

/-- In a well-formed table, `hashmap_get` returns the value of any stored
entry whose key the equality function matches. -/
theorem get_of_mem (hm : Hashmap) (k : Ptr)
    (hcoh : Coherent hm) (hdk : DistinctKeys hm)
    (hsym : EqSymm hm.equals) (htr : EqTrans hm.equals)
    (hcompat : HashCompat hm.hashcode hm.equals)
    (e : Entry) (he : e ∈ entries hm) (hek : hm.equals e.key k = true) :
    hashmap_get hm k = e.value := by
  obtain ⟨j, hj, hmem⟩ := mem_entries_iff.mp he
  have hje : bucketIdx hm.size (hm.hashcode e.key) = j := hcoh j hj e hmem
  have hhash : hm.hashcode e.key = hm.hashcode k := hcompat e.key k hek
  have hjk : bucketIdx hm.size (hm.hashcode k) = j := by rw [← hhash]; exact hje
  simp only [hashmap_get, hjk]
  rcases hfind : (hm.backing.getD j []).find? (fun x => hm.equals x.key k) with _ | e'
  · exact absurd (List.find?_eq_none.mp hfind e hmem) (by simp [hek])
  · have he'mem : e' ∈ entries hm :=
      mem_entries_iff.mpr ⟨j, hj, List.mem_of_find?_eq_some hfind⟩
    have he'k : hm.equals e'.key k = true := by
      have h := List.find?_some hfind
      exact h
    by_cases hee : e' = e
    · rw [hfind, hee]
    · have hfalse : hm.equals e'.key e.key = false :=
        hdk.forall (distinct_rel_symm hsym) he'mem he hee
      have hke : hm.equals k e.key = true := by rw [← hsym]; exact hek
      have : hm.equals e'.key e.key = true := htr e'.key k e.key he'k hke
      rw [this] at hfalse
      cases hfalse

/-- In a well-formed table, `hashmap_get` returns `NULL` when no stored
entry matches the key. -/
theorem get_of_absent (hm : Hashmap) (k : Ptr)
    (habs : ∀ e ∈ entries hm, hm.equals e.key k = false) :
    hashmap_get hm k = 0 := by
  have hfind : List.find? (fun e => hm.equals e.key k)
      (hm.backing.getD (bucketIdx hm.size (hm.hashcode k)) []) = none := by
    refine List.find?_eq_none.mpr fun x hx => ?_
    simp [habs x (mem_getD_mem_flatten hx)]
  simp only [hashmap_get, hfind]

/-- A successful `resize` changes the result of no lookup on a
well-formed table whose hash and equality callbacks honour their
contract. -/
theorem resize_get (hm : Hashmap) {n : Nat} (k : Ptr)
    (hcoh : Coherent hm) (hdk : DistinctKeys hm)
    (hsym : EqSymm hm.equals) (htr : EqTrans hm.equals)
    (hcompat : HashCompat hm.hashcode hm.equals) (hn : 0 < n) :
    hashmap_get (resize hm n) k = hashmap_get hm k := by
  have heq : (resize hm n).equals = hm.equals := resize_equals hm n
  have hh : (resize hm n).hashcode = hm.hashcode := resize_hashcode hm n
  have hperm := resize_entries_perm hm hn
  by_cases hex : ∃ e ∈ entries hm, hm.equals e.key k = true
  · obtain ⟨e, he, hek⟩ := hex
    have h1 : hashmap_get hm k = e.value :=
      get_of_mem hm k hcoh hdk hsym htr hcompat e he hek
    have h2 : hashmap_get (resize hm n) k = e.value := by
      refine get_of_mem (resize hm n) k
        (resize_coherent hm hn) (resize_distinct hm hn hsym hdk)
        (by rw [heq]; exact hsym) (by rw [heq]; exact htr)
        (by rw [heq, hh]; exact hcompat) e (hperm.mem_iff.mpr he)
        (by rw [heq]; exact hek)
    rw [h1, h2]
  · push_neg at hex
    have habs : ∀ e ∈ entries hm, hm.equals e.key k = false := by
      intro e he
      exact Bool.eq_false_iff.mpr (hex e he)
    have h1 : hashmap_get hm k = 0 := get_of_absent hm k habs
    have h2 : hashmap_get (resize hm n) k = 0 := by
      refine get_of_absent (resize hm n) k ?_
      intro e he
      rw [heq]
      exact habs e (hperm.mem_iff.mp he)
    rw [h1, h2]

end Chained

/-! ### `hashmap_add` decomposed through `resizeStep` and `addStep` -/

namespace Chained

theorem hashmap_add_eq_steps (hm : Hashmap) (k v : Ptr) :
    hashmap_add hm k v = addStep (resizeStep hm) k v := rfl

theorem resizeStep_wfLen {hm : Hashmap} (h : WfLen hm) : WfLen (resizeStep hm) := by
  unfold resizeStep
  by_cases hth : 3 * hm.nentries ≥ 2 * hm.size
  · rw [if_pos hth]
    exact resize_wfLen hm (Nat.mul_pos h.2 (by norm_num))
  · rwa [if_neg hth]

theorem resizeStep_coherent {hm : Hashmap} (hwf : WfLen hm) (hc : Coherent hm) :
    Coherent (resizeStep hm) := by
  unfold resizeStep
  by_cases hth : 3 * hm.nentries ≥ 2 * hm.size
  · rw [if_pos hth]
    exact resize_coherent hm (Nat.mul_pos hwf.2 (by norm_num))
  · rwa [if_neg hth]

theorem resizeStep_distinct {hm : Hashmap} (hwf : WfLen hm)
    (hsym : EqSymm hm.equals) (hdk : DistinctKeys hm) :
    DistinctKeys (resizeStep hm) := by
  unfold resizeStep
  by_cases hth : 3 * hm.nentries ≥ 2 * hm.size
  · rw [if_pos hth]
    exact resize_distinct hm (Nat.mul_pos hwf.2 (by norm_num)) hsym hdk
  · rwa [if_neg hth]

theorem resizeStep_nentries (hm : Hashmap) :
    (resizeStep hm).nentries = hm.nentries := by
  unfold resizeStep
  by_cases hth : 3 * hm.nentries ≥ 2 * hm.size
  · rw [if_pos hth, resize_nentries]
  · rw [if_neg hth]

theorem resizeStep_equals (hm : Hashmap) :
    (resizeStep hm).equals = hm.equals := by
  unfold resizeStep
  by_cases hth : 3 * hm.nentries ≥ 2 * hm.size
  · rw [if_pos hth, resize_equals]
  · rw [if_neg hth]

theorem resizeStep_hashcode (hm : Hashmap) :
    (resizeStep hm).hashcode = hm.hashcode := by
  unfold resizeStep
  by_cases hth : 3 * hm.nentries ≥ 2 * hm.size
  · rw [if_pos hth, resize_hashcode]
  · rw [if_neg hth]

theorem resizeStep_size (hm : Hashmap) :
    (resizeStep hm).size
      = if 3 * hm.nentries ≥ 2 * hm.size then hm.size * 2 else hm.size := by
  unfold resizeStep
  by_cases hth : 3 * hm.nentries ≥ 2 * hm.size
  · rw [if_pos hth, if_pos hth, resize_size]
  · rw [if_neg hth, if_neg hth]

theorem resizeStep_entries_perm {hm : Hashmap} (hwf : WfLen hm) :
    (entries (resizeStep hm)).Perm (entries hm) := by
  unfold resizeStep
  by_cases hth : 3 * hm.nentries ≥ 2 * hm.size
  · rw [if_pos hth]
    exact resize_entries_perm hm (Nat.mul_pos hwf.2 (by norm_num))
  · rw [if_neg hth]

theorem resizeStep_get {hm : Hashmap} (k : Ptr)
    (hwf : WfLen hm) (hcoh : Coherent hm) (hdk : DistinctKeys hm)
    (hsym : EqSymm hm.equals) (htr : EqTrans hm.equals)
    (hcompat : HashCompat hm.hashcode hm.equals) :
    hashmap_get (resizeStep hm) k = hashmap_get hm k := by
  unfold resizeStep
  by_cases hth : 3 * hm.nentries ≥ 2 * hm.size
  · rw [if_pos hth]
    exact resize_get hm k hcoh hdk hsym htr hcompat (Nat.mul_pos hwf.2 (by norm_num))
  · rw [if_neg hth]

theorem addStep_dup (hm1 : Hashmap) (k v : Ptr)
    (hdup : (hm1.backing.getD (bucketIdx hm1.size (hm1.hashcode k)) []).any
      (fun e => hm1.equals e.key k) = true) :
    addStep hm1 k v = (false, hm1) := by
  simp only [addStep, hdup]
  rw [if_pos trivial]

theorem addStep_fresh (hm1 : Hashmap) (k v : Ptr)
    (hfresh : (hm1.backing.getD (bucketIdx hm1.size (hm1.hashcode k)) []).any
      (fun e => hm1.equals e.key k) = false) :
    addStep hm1 k v
      = (true, { add_entry hm1 ⟨k, v⟩ with
                   nentries := (add_entry hm1 ⟨k, v⟩).nentries + 1 }) := by
  simp only [addStep, hfresh]
  rw [if_neg Bool.false_ne_true]

theorem addStep_snd_size (hm1 : Hashmap) (k v : Ptr) :
    (addStep hm1 k v).2.size = hm1.size := by
  by_cases hdup : (hm1.backing.getD (bucketIdx hm1.size (hm1.hashcode k)) []).any
      (fun e => hm1.equals e.key k) = true
  · rw [addStep_dup hm1 k v hdup]
  · rw [addStep_fresh hm1 k v (Bool.eq_false_iff.mpr hdup)]
    rfl

end Chained

/-! ### Remaining helper lemmas -/

namespace Chained

/-- `hashmap_get` ignores the entry counter. -/
theorem get_set_nentries (hm : Hashmap) (m : Nat) (k : Ptr) :
    hashmap_get { hm with nentries := m } k = hashmap_get hm k := rfl

/-- After `add_entry` of `⟨k, v⟩`, looking up `k` finds the fresh entry at
the head of its bucket (the equality function must accept `k = k`). -/
theorem get_after_add_entry (hm1 : Hashmap) (k v : Ptr) (hwf : WfLen hm1)
    (hkk : hm1.equals k k = true) :
    hashmap_get (add_entry hm1 ⟨k, v⟩) k = v := by
  have hidx : bucketIdx hm1.size (hm1.hashcode k) < hm1.backing.length := by
    rw [hwf.1]
    exact bucketIdx_lt _ _ hwf.2
  have hback : (add_entry hm1 ⟨k, v⟩).backing
      = hm1.backing.set (bucketIdx hm1.size (hm1.hashcode k))
          (⟨k, v⟩ :: hm1.backing.getD (bucketIdx hm1.size (hm1.hashcode k)) []) := rfl
  have hfind : List.find? (fun e : Entry => hm1.equals e.key k)
      (⟨k, v⟩ :: hm1.backing.getD (bucketIdx hm1.size (hm1.hashcode k)) [])
      = some ⟨k, v⟩ := by
    rw [List.find?_cons_of_pos]
    exact hkk
  simp only [hashmap_get]
  rw [show (add_entry hm1 ⟨k, v⟩).size = hm1.size from rfl,
    show (add_entry hm1 ⟨k, v⟩).hashcode = hm1.hashcode from rfl,
    show (add_entry hm1 ⟨k, v⟩).equals = hm1.equals from rfl,
    hback, getD_set_self _ _ _ _ hidx, hfind]

/-- When no entry of the bucket matches, the removal walk returns `none`. -/
theorem bucketRemove_eq_none {p : Entry → Bool} {l : List Entry}
    (h : ∀ e ∈ l, p e = false) : bucketRemove p l = none := by
  induction l with
  | nil => rfl
  | cons e rest ih =>
    unfold bucketRemove
    rw [h e (List.mem_cons_self e rest), if_neg Bool.false_ne_true,
      ih (fun x hx => h x (List.mem_cons_of_mem e hx))]

end Chained

/-! ### Bounds of `compress` -/

theorem compress_in_bounds (size : Nat) (h : Int) (h0 : 0 < size)
    (h31 : size ≤ 2 ^ 31) :
    0 ≤ compress size h ∧ compress size h < (size : Int) := by
  have hmlt : uhash h % size < size := Nat.mod_lt _ h0
  have hm31 : uhash h % size < 2 ^ 31 := lt_of_lt_of_le hmlt h31
  have hm32 : uhash h % size < 2 ^ 32 :=
    lt_of_lt_of_le hmlt (h31.trans (by norm_num))
  simp only [compress, truncInt32, Nat.mod_eq_of_lt hm32]
  rw [if_pos hm31]
  exact ⟨Int.ofNat_nonneg _, by exact_mod_cast hmlt⟩

theorem compress_eq_bucketIdx (size : Nat) (h : Int) (h0 : 0 < size)
    (h31 : size ≤ 2 ^ 31) :
    compress size h = (bucketIdx size h : Int) := by
  have hmlt : uhash h % size < size := Nat.mod_lt _ h0
  have hm31 : uhash h % size < 2 ^ 31 := lt_of_lt_of_le hmlt h31
  have hm32 : uhash h % size < 2 ^ 32 :=
    lt_of_lt_of_le hmlt (h31.trans (by norm_num))
  simp only [compress, truncInt32, bucketIdx, Nat.mod_eq_of_lt hm32]
  rw [if_pos hm31]

/-! ### Size bookkeeping of the open-addressing insert -/

namespace OpenAddr

theorem add_entry_oa_snd_size (hm : OAMap) (e : Slot) :
    (add_entry hm e).2.size = hm.size := by
  simp only [add_entry]
  rcases addLoop hm.backing hm.size hm.equals e.key
      (bucketIdx hm.size (hm.hashcode e.key))
      (bucketIdx hm.size (hm.hashcode e.key)) hm.size with _ | i
  · rfl
  · rfl

theorem foldl_reinsert_oa_size (l : List Slot) (acc : OAMap) :
    (l.foldl
      (fun acc cur => if cur.state = .active then (add_entry acc cur).2 else acc)
      acc).size = acc.size := by
  induction l generalizing acc with
  | nil => rfl
  | cons x xs ih =>
    rw [List.foldl_cons, ih]
    by_cases hx : x.state = .active
    · rw [if_pos hx, add_entry_oa_snd_size]
    · rw [if_neg hx]

theorem resize_oa_size (hm : OAMap) (n : Nat) : (resize hm n).size = n := by
  unfold resize
  rw [foldl_reinsert_oa_size]

theorem hashmap_add_oa_snd_size (hm : OAMap) (k v : Ptr) :
    (hashmap_add hm k v).2.size
      = if 3 * hm.nentries ≥ 2 * hm.size then hm.size * 2 else hm.size := by
  simp only [hashmap_add]
  by_cases hth : 3 * hm.nentries ≥ 2 * hm.size
  · rw [if_pos hth, if_pos hth]
    rcases hadd : add_entry (resize hm (hm.size * 2)) ⟨k, v, .active⟩ with ⟨b, hm2⟩
    have hsz : hm2.size = hm.size * 2 := by
      have h2 := add_entry_oa_snd_size (resize hm (hm.size * 2)) ⟨k, v, .active⟩
      rw [hadd] at h2
      rw [h2, resize_oa_size]
    cases b
    · exact hsz
    · exact hsz
  · rw [if_neg hth, if_neg hth]
    rcases hadd : add_entry hm ⟨k, v, .active⟩ with ⟨b, hm2⟩
    have hsz : hm2.size = hm.size := by
      have h2 := add_entry_oa_snd_size hm ⟨k, v, .active⟩
      rw [hadd] at h2
      exact h2
    cases b
    · exact hsz
    · exact hsz

end OpenAddr

/-! ### Contract facts about the concrete hash and equality callbacks -/

theorem eqPtr_symm : Chained.EqSymm eqPtr :=
  fun _ _ => decide_eq_decide.mpr eq_comm

theorem eqPtr_trans : Chained.EqTrans eqPtr :=
  fun _ _ _ hab hbc =>
    decide_eq_true ((of_decide_eq_true hab).trans (of_decide_eq_true hbc))

theorem idHash_compat : Chained.HashCompat idHash eqPtr :=
  fun _ _ hab => congrArg idHash (of_decide_eq_true hab)

/-! ### Claim theorems -/

/-- Claim C1, counterexample: inserting the (legitimate) value `NULL`
succeeds, and `get` does return it, but `contains` then reports `false`,
because `contains` is `get != NULL`.  So the claim's `contains` conjunct
fails for `v = NULL`. -/
theorem insert_null_value_breaks_contains :
    (Chained.hashmap_add (Chained.hashmap_new idHash eqPtr) 1 0).1 = true
    ∧ Chained.hashmap_get cmapNull 1 = 0
    ∧ Chained.hashmap_contains cmapNull 1 = false := by decide

/-- Claim C1 (amended): on a well-formed chained table whose equality
function accepts `k = k`, if `insert(t,k,v)` returns true then `get(t,k)`
returns `v`, and — provided `v` is not `NULL` — `contains(t,k)` returns
true. -/
theorem insert_success_get_contains (hm : Chained.Hashmap) (k v : Ptr)
    (hwf : Chained.WfLen hm) (hkk : hm.equals k k = true) (hv : v ≠ 0)
    (hs : (Chained.hashmap_add hm k v).1 = true) :
    Chained.hashmap_get (Chained.hashmap_add hm k v).2 k = v
    ∧ Chained.hashmap_contains (Chained.hashmap_add hm k v).2 k = true := by
  rw [Chained.hashmap_add_eq_steps] at hs ⊢
  have hwf1 : Chained.WfLen (Chained.resizeStep hm) := Chained.resizeStep_wfLen hwf
  have hkk1 : (Chained.resizeStep hm).equals k k = true := by
    rw [Chained.resizeStep_equals]
    exact hkk
  by_cases hdup : ((Chained.resizeStep hm).backing.getD
      (bucketIdx (Chained.resizeStep hm).size ((Chained.resizeStep hm).hashcode k)) []).any
      (fun e => (Chained.resizeStep hm).equals e.key k) = true
  · rw [Chained.addStep_dup _ k v hdup] at hs
    simp at hs
  · rw [Chained.addStep_fresh _ k v (Bool.eq_false_iff.mpr hdup)]
    have hget : Chained.hashmap_get
        { Chained.add_entry (Chained.resizeStep hm) ⟨k, v⟩ with
            nentries := (Chained.add_entry (Chained.resizeStep hm) ⟨k, v⟩).nentries + 1 } k
        = v := by
      rw [Chained.get_set_nentries]
      exact Chained.get_after_add_entry _ k v hwf1 hkk1
    refine ⟨hget, ?_⟩
    unfold Chained.hashmap_contains
    rw [hget]
    simpa using hv

/-- Claim C1 witness: on a fresh table, `insert(t,1,5)` succeeds,
`get(t,1) = 5` and `contains(t,1)` is true. -/
theorem insert_success_get_contains_witness :
    Chained.hashmap_get
        (Chained.hashmap_add (Chained.hashmap_new idHash eqPtr) 1 5).2 1 = 5
    ∧ Chained.hashmap_contains
        (Chained.hashmap_add (Chained.hashmap_new idHash eqPtr) 1 5).2 1 = true :=
  insert_success_get_contains (Chained.hashmap_new idHash eqPtr) 1 5
    (by decide) (by decide) (by decide) (by decide)

set_option maxRecDepth 4000 in
/-- Claim C2, counterexample: on a seven-entry table the rejected
duplicate insert returns false and leaves count and mappings alone, but
the capacity is NOT unchanged: the load-factor resize runs before the
duplicate check, so the backing array has already doubled from 10 to 20
when the insert is refused. -/
theorem dup_insert_resizes_capacity :
    (Chained.hashmap_add cmapSeven 0 99).1 = false
    ∧ (Chained.hashmap_add cmapSeven 0 99).2.nentries = 7
    ∧ cmapSeven.size = 10
    ∧ (Chained.hashmap_add cmapSeven 0 99).2.size = 20 := by decide

/-- Claim C2 (amended): on a well-formed chained table whose callbacks
honour the equality/hash contract, inserting a key that is already
present returns false, leaves the count and every lookup result
unchanged, and the first value stays retrievable — but the capacity may
have doubled if the load-factor threshold was crossed, because the
resize precedes the duplicate check. -/
theorem dup_insert_rejected (hm : Chained.Hashmap) (k v : Ptr)
    (hwf : Chained.WfLen hm) (hcoh : Chained.Coherent hm)
    (hdk : Chained.DistinctKeys hm)
    (hsym : Chained.EqSymm hm.equals) (htr : Chained.EqTrans hm.equals)
    (hcompat : Chained.HashCompat hm.hashcode hm.equals)
    (e : Chained.Entry) (he : e ∈ Chained.entries hm)
    (hek : hm.equals e.key k = true) :
    (Chained.hashmap_add hm k v).1 = false
    ∧ (Chained.hashmap_add hm k v).2.nentries = hm.nentries
    ∧ (∀ k2 : Ptr, Chained.hashmap_get (Chained.hashmap_add hm k v).2 k2
        = Chained.hashmap_get hm k2)
    ∧ (Chained.hashmap_add hm k v).2.size
        = (if 3 * hm.nentries ≥ 2 * hm.size then hm.size * 2 else hm.size) := by
  rw [Chained.hashmap_add_eq_steps]
  have hwf1 : Chained.WfLen (Chained.resizeStep hm) := Chained.resizeStep_wfLen hwf
  have hcoh1 : Chained.Coherent (Chained.resizeStep hm) :=
    Chained.resizeStep_coherent hwf hcoh
  have he1 : e ∈ Chained.entries (Chained.resizeStep hm) :=
    (Chained.resizeStep_entries_perm hwf).mem_iff.mpr he
  have hek1 : (Chained.resizeStep hm).equals e.key k = true := by
    rw [Chained.resizeStep_equals]
    exact hek
  have hdup : ((Chained.resizeStep hm).backing.getD
      (bucketIdx (Chained.resizeStep hm).size ((Chained.resizeStep hm).hashcode k)) []).any
      (fun x => (Chained.resizeStep hm).equals x.key k) = true := by
    obtain ⟨j, hj, hmem⟩ := Chained.mem_entries_iff.mp he1
    have hje : bucketIdx (Chained.resizeStep hm).size
        ((Chained.resizeStep hm).hashcode e.key) = j := hcoh1 j hj e hmem
    have hhash : (Chained.resizeStep hm).hashcode e.key
        = (Chained.resizeStep hm).hashcode k := by
      rw [Chained.resizeStep_hashcode]
      exact hcompat e.key k hek
    rw [← hhash, hje]
    exact List.any_eq_true.mpr ⟨e, hmem, hek1⟩
  rw [Chained.addStep_dup _ k v hdup]
  refine ⟨rfl, Chained.resizeStep_nentries hm, ?_, Chained.resizeStep_size hm⟩
  intro k2
  exact Chained.resizeStep_get k2 hwf hcoh hdk hsym htr hcompat

/-- Claim C2 witness: on the one-entry table `1 ↦ 5`, a second insert of
key 1 returns false with count, lookup of key 1, and (below threshold)
capacity unchanged. -/
theorem dup_insert_rejected_witness :
    (Chained.hashmap_add cmapOne 1 99).1 = false
    ∧ (Chained.hashmap_add cmapOne 1 99).2.nentries = cmapOne.nentries
    ∧ Chained.hashmap_get (Chained.hashmap_add cmapOne 1 99).2 1
        = Chained.hashmap_get cmapOne 1
    ∧ (Chained.hashmap_add cmapOne 1 99).2.size
        = (if 3 * cmapOne.nentries ≥ 2 * cmapOne.size
           then cmapOne.size * 2 else cmapOne.size) := by
  have h := dup_insert_rejected cmapOne 1 99 (by decide) (by decide) (by decide)
    eqPtr_symm eqPtr_trans idHash_compat ⟨1, 5⟩ (by decide) (by decide)
  exact ⟨h.1, h.2.1, h.2.2.1 1, h.2.2.2⟩

set_option maxRecDepth 4000 in
/-- Claim C3 (code bug): in the open-addressing variant, the reachable
state `add 0; add 10; remove 0; add 10` holds TWO live (ACTIVE) slots
whose keys are both 10, which the table's equality function accepts —
the second `add 10` stopped at the slot-0 tombstone before its duplicate
scan could reach the live key 10 in slot 1. -/
theorem duplicate_live_keys_reachable :
    (OpenAddr.liveEntries oaDup).map OpenAddr.Slot.key = [10, 10]
    ∧ oaDup.equals 10 10 = true
    ∧ (OpenAddr.hashmap_add (OpenAddr.run idHash eqPtr
        [.add 0 100, .add 10 200, .remove 0]) 10 300).1 = true := by decide

set_option maxRecDepth 8000 in
/-- Claim C4 (code bug): after the reachable sequence behind `oaCount`,
`hashmap_size` reports 8 while only 7 slots are ACTIVE: the resize
triggered by the tenth operation re-inserted the two live key-10 slots,
`add_entry` silently dropped the second as a duplicate, and `nentries`
was never corrected. -/
theorem count_diverges_from_live_entries :
    OpenAddr.hashmap_size oaCount = 8
    ∧ (OpenAddr.liveEntries oaCount).length = 7 := by decide

set_option maxRecDepth 8000 in
/-- Claim C6 (code bug): in the open-addressing table `oaPre`, key 18 is
live and `get` returns 182 (slot 8, probe-first); the next insert crosses
the load-factor threshold and resizes to capacity 20, after which `get`
on the same key returns 181 — the rehash processed slot 0 before slot 8
and dropped the probe-first copy as a duplicate. -/
theorem resize_changes_lookup :
    OpenAddr.hashmap_get oaPre 18 = 182
    ∧ 3 * oaPre.nentries ≥ 2 * oaPre.size
    ∧ (OpenAddr.hashmap_add oaPre 5 5).2.size = 20
    ∧ OpenAddr.hashmap_get (OpenAddr.hashmap_add oaPre 5 5).2 18 = 181 := by decide

/-- Claim C7 (code bug): with slot 0 a tombstone (and slot 1 EMPTY), the
insertion probe for key 10 — whose probe sequence starts at slot 0 —
stops at the tombstone and stores the new entry THERE, instead of
continuing past it to an EMPTY slot as the specification describes. -/
theorem insert_lands_on_tombstone :
    bucketIdx oaTomb.size (oaTomb.hashcode 10) = 0
    ∧ (oaTomb.backing.getD 0 OpenAddr.zeroSlot).state = OpenAddr.SlotState.deleted
    ∧ (oaTomb.backing.getD 1 OpenAddr.zeroSlot).state = OpenAddr.SlotState.empty
    ∧ (OpenAddr.hashmap_add oaTomb 10 200).1 = true
    ∧ (OpenAddr.hashmap_add oaTomb 10 200).2.backing.getD 0 OpenAddr.zeroSlot
        = ⟨10, 200, OpenAddr.SlotState.active⟩ := by decide

/-- Claim C5: in both variants, `insert` doubles the capacity exactly
when `count * 1.5 >= capacity` held on entry (`n * 1.5 ≥ s` in exact
`double` arithmetic is `3n ≥ 2s`), and leaves it unchanged otherwise. -/
theorem add_doubles_capacity_iff_threshold (hm : Chained.Hashmap)
    (k v : Ptr) (om : OpenAddr.OAMap) (k2 v2 : Ptr) :
    (Chained.hashmap_add hm k v).2.size
      = (if 3 * hm.nentries ≥ 2 * hm.size then hm.size * 2 else hm.size)
    ∧ (OpenAddr.hashmap_add om k2 v2).2.size
      = (if 3 * om.nentries ≥ 2 * om.size then om.size * 2 else om.size) := by
  constructor
  · rw [Chained.hashmap_add_eq_steps, Chained.addStep_snd_size,
      Chained.resizeStep_size]
  · exact OpenAddr.hashmap_add_oa_snd_size om k2 v2

/-- Claim C8, counterexample: key 2 is absent from `cmapNull` and
`get` signals that with `NULL` (0) — but key 1 is present with the
legitimately stored value `NULL`, for which `get` returns exactly the
same 0.  The absent signal therefore collides with a stored value. -/
theorem null_sentinel_collides :
    (Chained.hashmap_add (Chained.hashmap_new idHash eqPtr) 1 0).1 = true
    ∧ (⟨1, 0⟩ : Chained.Entry) ∈ Chained.entries cmapNull
    ∧ (∀ e ∈ Chained.entries cmapNull, cmapNull.equals e.key 2 = false)
    ∧ Chained.hashmap_get cmapNull 2 = 0
    ∧ Chained.hashmap_get cmapNull 1 = 0 := by decide

/-- Claim C8 (amended): `get` and `remove` on an absent key signal the
absence by returning `NULL`, without mutating the table.  This signal is
distinguishable from every non-`NULL` stored value, but it is the very
value `NULL`, so a caller who stores `NULL` cannot tell it from absence. -/
theorem absent_key_returns_null (hm : Chained.Hashmap) (k : Ptr)
    (habs : ∀ e ∈ Chained.entries hm, hm.equals e.key k = false) :
    Chained.hashmap_get hm k = 0
    ∧ Chained.hashmap_remove hm k = (0, hm)
    ∧ ∀ v : Ptr, v ≠ 0 → Chained.hashmap_get hm k ≠ v := by
  have hget := Chained.get_of_absent hm k habs
  have hnone : Chained.bucketRemove (fun e => hm.equals e.key k)
      (hm.backing.getD (bucketIdx hm.size (hm.hashcode k)) []) = none :=
    Chained.bucketRemove_eq_none (fun e he => habs e (mem_getD_mem_flatten he))
  refine ⟨hget, ?_, fun v hv hc => hv (hget ▸ hc.symm)⟩
  simp only [Chained.hashmap_remove, hnone]

/-- Claim C8 witness: on a fresh (empty) table, `get` and `remove` of
key 2 both return `NULL`, the table is unchanged, and the signal differs
from the non-`NULL` value 5. -/
theorem absent_key_returns_null_witness :
    Chained.hashmap_get (Chained.hashmap_new idHash eqPtr) 2 = 0
    ∧ Chained.hashmap_remove (Chained.hashmap_new idHash eqPtr) 2
        = (0, Chained.hashmap_new idHash eqPtr)
    ∧ Chained.hashmap_get (Chained.hashmap_new idHash eqPtr) 2 ≠ 5 := by
  have h := absent_key_returns_null (Chained.hashmap_new idHash eqPtr) 2 (by decide)
  exact ⟨h.1, h.2.1, h.2.2 5 (by decide)⟩

/-- Claim C9, counterexample: for capacity 2^32 (a legal nonzero
`size_t`) and hash -1, `compress` — whose `int` return type truncates the
64-bit remainder — yields -1, outside `[0, capacity)`.  The claim's
"every nonzero capacity" is too strong; it holds for capacities up to
2^31, which covers every capacity the library can reach. -/
theorem compress_negative_out_of_range :
    compress (2 ^ 32) (-1) = -1 ∧ ¬(0 ≤ compress (2 ^ 32) (-1)) := by decide

/-- Claim C9 (amended): for every hash value — negative ones included —
and every nonzero capacity of at most 2^31, `compress` (C's
`int % size_t`) lands in `[0, capacity)`, and the `size_t` bucket index
used for the array access is below the capacity, so probe and bucket
accesses are in bounds. -/
theorem compress_in_range (size : Nat) (h : Int) (h0 : 0 < size)
    (h31 : size ≤ 2 ^ 31) :
    0 ≤ compress size h ∧ compress size h < (size : Int)
    ∧ bucketIdx size h < size :=
  ⟨(compress_in_bounds size h h0 h31).1,
   (compress_in_bounds size h h0 h31).2,
   Nat.mod_lt _ h0⟩

/-- Claim C9 witness: capacity 10, hash -7: `compress` yields 9, inside
`[0, 10)`. -/
theorem compress_in_range_witness :
    0 ≤ compress 10 (-7) ∧ compress 10 (-7) < (10 : Int)
    ∧ bucketIdx 10 (-7) < 10 :=
  compress_in_range 10 (-7) (by decide) (by decide)

/-- Claim C10: in a well-formed chained table whose callbacks honour the
equality/hash contract, a key stored with value `NULL` is reported as
absent by the public interface: `get` returns `NULL` and `contains`
returns false. -/
theorem null_value_reported_absent (hm : Chained.Hashmap) (k : Ptr)
    (hcoh : Chained.Coherent hm) (hdk : Chained.DistinctKeys hm)
    (hsym : Chained.EqSymm hm.equals) (htr : Chained.EqTrans hm.equals)
    (hcompat : Chained.HashCompat hm.hashcode hm.equals)
    (e : Chained.Entry) (he : e ∈ Chained.entries hm)
    (hek : hm.equals e.key k = true) (hnull : e.value = 0) :
    Chained.hashmap_get hm k = 0 ∧ Chained.hashmap_contains hm k = false := by
  have hget := Chained.get_of_mem hm k hcoh hdk hsym htr hcompat e he hek
  rw [hnull] at hget
  refine ⟨hget, ?_⟩
  unfold Chained.hashmap_contains
  rw [hget]
  decide

/-- Claim C10 witness: in `cmapNull` (holding `1 ↦ NULL`), `get` of
key 1 returns `NULL` and `contains` reports false. -/
theorem null_value_reported_absent_witness :
    Chained.hashmap_get cmapNull 1 = 0
    ∧ Chained.hashmap_contains cmapNull 1 = false :=
  null_value_reported_absent cmapNull 1 (by decide) (by decide)
    eqPtr_symm eqPtr_trans idHash_compat ⟨1, 0⟩ (by decide) (by decide) (by decide)
